import Mathlib

/-!
Shallow embedding of `main.cpp` from the STLCost repository.

The program stores a square RGBA image together with its full mip chain in
one flat buffer of `float` channel values and generates the chain by
repeated 2x2 box filtering.  The embedding below translates each routine of
the source:

* `IMAGE_SIZE`            - the `IMAGE_SIZE()` macro (512);
* `totalPixelsMipped`     - `TotalPixelsMipped()` (while-loop as recursion);
* `totalChannelsMipped`   - `TotalChannelsMipped()`;
* `numMips`               - `NumMips()`;
* `getMipInfo`            - `GetMipInfo(desiredMipIndex, offset, width)`,
                            recursion on the desired index mirrors the loop;
* `boxValue`              - the accumulation inside `MakeMip`'s channel loop,
                            including the source's `image[...] + channel`
                            expression, which adds the channel index to the
                            pixel value (the read index itself carries no
                            channel term);
* `makeMip`               - `MakeMip(image, mipIndex)`;
* `makeMips`              - `MakeMips(image)`;
* `initImage`             - `InitImage(image)`.

A buffer is modelled as a total map `ℕ → ℚ`: channel values (`ChannelType =
float`) are modelled as exact rationals, each float operation the program
performs (sums of four values and one division by `4.0f`) by the
corresponding exact operation.  In-place stores become `Function.update`,
and each `for` loop becomes a `List.foldl` over the loop counter's range, so
that the store order and the read-from-partially-written-buffer semantics of
the source are preserved exactly.  The destination cursor `destOffset++` of
`MakeMip` is represented by its running value `destOffset + k`, where `k`
counts iterations of the three nested loops; likewise the running pixel
counter `i` of `InitImage` enumerates `y * IMAGE_SIZE() + x` in row-major
order, so `x = i % w` and `y = i / w`.
-/

/-- The `IMAGE_SIZE()` macro: the configured base width of the image. -/
def IMAGE_SIZE : ℕ := 512

/-- A flat channel buffer, as a total map from element index to value. -/
abbrev Buffer := ℕ → ℚ

/-- `TotalPixelsMipped()`: `ret += size*size` while halving `size` to 0. -/
def totalPixelsMipped (w : ℕ) : ℕ :=
  if h : w = 0 then 0 else w * w + totalPixelsMipped (w / 2)
termination_by w
decreasing_by exact Nat.div_lt_self (Nat.pos_of_ne_zero h) one_lt_two

/-- `TotalChannelsMipped()`: four (RGBA) channels per pixel. -/
def totalChannelsMipped (w : ℕ) : ℕ :=
  totalPixelsMipped w * 4

/-- `NumMips()`: counts the halvings of `size` down to 0. -/
def numMips (w : ℕ) : ℕ :=
  if h : w = 0 then 0 else 1 + numMips (w / 2)
termination_by w
decreasing_by exact Nat.div_lt_self (Nat.pos_of_ne_zero h) one_lt_two

/-- `GetMipInfo(desiredMipIndex, offset, width)`: starting from `(0, w)`,
each loop iteration does `offset += width*width*4; width /= 2`. -/
def getMipInfo (w : ℕ) : ℕ → ℕ × ℕ
  | 0 => (0, w)
  | i + 1 =>
      ((getMipInfo w i).1 + (getMipInfo w i).2 * (getMipInfo w i).2 * 4,
       (getMipInfo w i).2 / 2)

/-- The `offset` output of `GetMipInfo`. -/
def mipOffset (w i : ℕ) : ℕ := (getMipInfo w i).1

/-- The `width` output of `GetMipInfo`. -/
def mipWidth (w i : ℕ) : ℕ := (getMipInfo w i).2

/-- The `value / 4.0f` computed by `MakeMip` for destination pixel
`(dx, dy)` and channel `c`: the source reads
`image[((destY*2+a)*srcWidth + destX*2+b)*4 + srcOffset] + channel` for the
four corners `a, b ∈ {0, 1}` — note that `channel` is added to the pixel
value, not to the read index. -/
def boxValue (im : Buffer) (srcOff srcW dy dx c : ℕ) : ℚ :=
  ((im (((dy * 2 + 0) * srcW + (dx * 2 + 0)) * 4 + srcOff) + (c : ℚ)) +
   (im (((dy * 2 + 0) * srcW + (dx * 2 + 1)) * 4 + srcOff) + (c : ℚ)) +
   (im (((dy * 2 + 1) * srcW + (dx * 2 + 0)) * 4 + srcOff) + (c : ℚ)) +
   (im (((dy * 2 + 1) * srcW + (dx * 2 + 1)) * 4 + srcOff) + (c : ℚ))) / 4

/-- One iteration of `MakeMip`'s innermost loop body at overall iteration
count `k`: the destination cursor stands at `dstOff + k`, and
`destY = k / 4 / destWidth`, `destX = k / 4 % destWidth`,
`channel = k % 4`. -/
def mipStep (srcOff srcW dstOff dstW : ℕ) (im : Buffer) (k : ℕ) : Buffer :=
  Function.update im (dstOff + k)
    (boxValue im srcOff srcW (k / 4 / dstW) (k / 4 % dstW) (k % 4))

/-- The three nested loops of `MakeMip`, flattened over the iteration
counter `k < n`. -/
def mipFold (srcOff srcW dstOff dstW : ℕ) (im : Buffer) (n : ℕ) : Buffer :=
  (List.range n).foldl (mipStep srcOff srcW dstOff dstW) im

/-- `MakeMip(image, mipIndex)`. -/
def makeMip (w : ℕ) (im : Buffer) (mipIndex : ℕ) : Buffer :=
  mipFold (mipOffset w (mipIndex - 1)) (mipWidth w (mipIndex - 1))
    (mipOffset w mipIndex) (mipWidth w mipIndex) im
    (mipWidth w mipIndex * mipWidth w mipIndex * 4)

/-- `MakeMips(image)`: `MakeMip` for every `mipIndex` in `[1, NumMips())`. -/
def makeMips (w : ℕ) (im : Buffer) : Buffer :=
  ((List.range (numMips w)).drop 1).foldl (fun b i => makeMip w b i) im

/-- The body of `InitImage`'s pixel loop at pixel counter `i`: four stores
`image[i*4+c]` for the synthetic gradient `(x % 256, y % 256, 0, 255)`. -/
def initStep (w : ℕ) (im : Buffer) (i : ℕ) : Buffer :=
  Function.update (Function.update (Function.update (Function.update im
    (i * 4) ((i % w % 256 : ℕ) : ℚ))
    (i * 4 + 1) ((i / w % 256 : ℕ) : ℚ))
    (i * 4 + 2) (0 : ℚ))
    (i * 4 + 3) (255 : ℚ)

/-- The pixel loop of `InitImage`, over the first `n` pixel counters. -/
def initFold (w : ℕ) (im : Buffer) (n : ℕ) : Buffer :=
  (List.range n).foldl (initStep w) im

/-- `InitImage(image)`: `memset` of all `TotalChannelsMipped()` elements to
zero, then the gradient loop over all `IMAGE_SIZE()²` level-0 pixels. -/
def initImage (w : ℕ) (im : Buffer) : Buffer :=
  initFold w (fun j => if j < totalChannelsMipped w then 0 else im j) (w * w)

/-- The gradient value `InitImage` stores for pixel counter `i`, channel
`c`: `(x % 256, y % 256, 0, 255)` with `x = i % w`, `y = i / w`. -/
def gradVal (w i c : ℕ) : ℚ :=
  if c = 0 then ((i % w % 256 : ℕ) : ℚ)
  else if c = 1 then ((i / w % 256 : ℕ) : ℚ)
  else if c = 2 then 0
  else 255

/-- The buffer element index written by iteration `k` of `MakeMip`'s loops
for target level `i` (the running destination cursor). -/
def makeMipWriteIdx (w i k : ℕ) : ℕ := mipOffset w i + k

/-- The buffer element index read by `MakeMip` for target level `i`,
destination pixel `(dx, dy)` and source-pixel corner `(a, b)`; the source
expression is `((destY*2+a)*srcWidth + destX*2+b)*4 + srcOffset`. -/
def makeMipReadIdx (w i dy dx a b : ℕ) : ℕ :=
  ((dy * 2 + a) * mipWidth w (i - 1) + (dx * 2 + b)) * 4 + mipOffset w (i - 1)

/-! ### A second, list-backed storage model

`main` runs the identical templated code over a heap-allocated `std::array`,
a `std::vector` and a `malloc`'d C array.  The function-backed model above
abstracts a buffer as `ℕ → ℚ`; the model below stores it as a finite list
(indexed reads defaulting to 0 out of range, writes via `List.set`), so that
storage-strategy independence can be stated as a refinement between the two
models starting from arbitrary initial contents. -/

abbrev BufferL := List ℚ

/-- Indexed read from the list-backed buffer. -/
def getL (l : BufferL) (j : ℕ) : ℚ := l.getD j 0

/-- `boxValue` over the list-backed buffer. -/
def boxValueL (l : BufferL) (srcOff srcW dy dx c : ℕ) : ℚ :=
  ((getL l (((dy * 2 + 0) * srcW + (dx * 2 + 0)) * 4 + srcOff) + (c : ℚ)) +
   (getL l (((dy * 2 + 0) * srcW + (dx * 2 + 1)) * 4 + srcOff) + (c : ℚ)) +
   (getL l (((dy * 2 + 1) * srcW + (dx * 2 + 0)) * 4 + srcOff) + (c : ℚ)) +
   (getL l (((dy * 2 + 1) * srcW + (dx * 2 + 1)) * 4 + srcOff) + (c : ℚ))) / 4

/-- `mipStep` over the list-backed buffer. -/
def mipStepL (srcOff srcW dstOff dstW : ℕ) (l : BufferL) (k : ℕ) : BufferL :=
  l.set (dstOff + k)
    (boxValueL l srcOff srcW (k / 4 / dstW) (k / 4 % dstW) (k % 4))

/-- `mipFold` over the list-backed buffer. -/
def mipFoldL (srcOff srcW dstOff dstW : ℕ) (l : BufferL) (n : ℕ) : BufferL :=
  (List.range n).foldl (mipStepL srcOff srcW dstOff dstW) l

/-- `MakeMip` over the list-backed buffer. -/
def makeMipL (w : ℕ) (l : BufferL) (mipIndex : ℕ) : BufferL :=
  mipFoldL (mipOffset w (mipIndex - 1)) (mipWidth w (mipIndex - 1))
    (mipOffset w mipIndex) (mipWidth w mipIndex) l
    (mipWidth w mipIndex * mipWidth w mipIndex * 4)

/-- `MakeMips` over the list-backed buffer. -/
def makeMipsL (w : ℕ) (l : BufferL) : BufferL :=
  ((List.range (numMips w)).drop 1).foldl (fun b i => makeMipL w b i) l

/-- `InitImage`'s pixel-loop body over the list-backed buffer. -/
def initStepL (w : ℕ) (l : BufferL) (i : ℕ) : BufferL :=
  ((((l.set (i * 4) ((i % w % 256 : ℕ) : ℚ)).set
    (i * 4 + 1) ((i / w % 256 : ℕ) : ℚ)).set
    (i * 4 + 2) (0 : ℚ)).set
    (i * 4 + 3) (255 : ℚ))

/-- `InitImage`'s pixel loop over the list-backed buffer. -/
def initFoldL (w : ℕ) (l : BufferL) (n : ℕ) : BufferL :=
  (List.range n).foldl (initStepL w) l

/-- `InitImage` over the list-backed buffer: the `memset` zeroes the whole
allocation (whose length is `TotalChannelsMipped()`). -/
def initImageL (w : ℕ) (l : BufferL) : BufferL :=
  initFoldL w (l.map (fun _ => 0)) (w * w)

/-! ### Basic equations for the while-loop recursions -/

theorem totalPixelsMipped_zero : totalPixelsMipped 0 = 0 := by
  rw [totalPixelsMipped]; rfl

theorem totalPixelsMipped_of_ne {w : ℕ} (h : w ≠ 0) :
    totalPixelsMipped w = w * w + totalPixelsMipped (w / 2) := by
  rw [totalPixelsMipped]; simp [h]

theorem numMips_zero : numMips 0 = 0 := by
  rw [numMips]; rfl

theorem numMips_of_ne {w : ℕ} (h : w ≠ 0) :
    numMips w = 1 + numMips (w / 2) := by
  rw [numMips]; simp [h]

theorem totalPixelsMipped_one : totalPixelsMipped 1 = 1 := by
  rw [totalPixelsMipped_of_ne one_ne_zero]; norm_num [totalPixelsMipped_zero]

theorem totalPixelsMipped_two : totalPixelsMipped 2 = 5 := by
  rw [totalPixelsMipped_of_ne two_ne_zero]; norm_num [totalPixelsMipped_one]

theorem totalPixelsMipped_four : totalPixelsMipped 4 = 21 := by
  rw [totalPixelsMipped_of_ne (by norm_num)]; norm_num [totalPixelsMipped_two]

theorem numMips_one : numMips 1 = 1 := by
  rw [numMips_of_ne one_ne_zero]; norm_num [numMips_zero]

theorem numMips_two : numMips 2 = 2 := by
  rw [numMips_of_ne two_ne_zero]; norm_num [numMips_one]

theorem numMips_four : numMips 4 = 3 := by
  rw [numMips_of_ne (by norm_num)]; norm_num [numMips_two]

/-! ### Characterisation of the MakeMip write loop -/

theorem mipFold_succ (srcOff srcW dstOff dstW : ℕ) (im : Buffer) (n : ℕ) :
    mipFold srcOff srcW dstOff dstW im (n + 1) =
      mipStep srcOff srcW dstOff dstW (mipFold srcOff srcW dstOff dstW im n) n := by
  unfold mipFold
  rw [List.range_succ, List.foldl_append]
  rfl

theorem mipFold_frame (srcOff srcW dstOff dstW : ℕ) (im : Buffer) (n j : ℕ)
    (hj : j < dstOff ∨ dstOff + n ≤ j) :
    mipFold srcOff srcW dstOff dstW im n j = im j := by
  induction n with
  | zero => rfl
  | succ n ih =>
      rw [mipFold_succ]
      unfold mipStep
      rw [Function.update_noteq (by omega)]
      exact ih (by omega)

theorem boxValue_congr (im im2 : Buffer) (srcOff srcW dy dx c B : ℕ)
    (hagree : ∀ j, j < B → im j = im2 j)
    (hr : ∀ a b, a ≤ 1 → b ≤ 1 →
      ((dy * 2 + a) * srcW + (dx * 2 + b)) * 4 + srcOff < B) :
    boxValue im srcOff srcW dy dx c = boxValue im2 srcOff srcW dy dx c := by
  unfold boxValue
  rw [hagree _ (hr 0 0 (by omega) (by omega)), hagree _ (hr 0 1 (by omega) (by omega)),
    hagree _ (hr 1 0 (by omega) (by omega)), hagree _ (hr 1 1 (by omega) (by omega))]

theorem mipFold_get (srcOff srcW dstOff dstW : ℕ) (im : Buffer) (n : ℕ) :
    ∀ k, (∀ k2, k2 < n → ∀ a b, a ≤ 1 → b ≤ 1 →
      ((k2 / 4 / dstW * 2 + a) * srcW + (k2 / 4 % dstW * 2 + b)) * 4 + srcOff < dstOff) →
    k < n →
    mipFold srcOff srcW dstOff dstW im n (dstOff + k) =
      boxValue im srcOff srcW (k / 4 / dstW) (k / 4 % dstW) (k % 4) := by
  induction n with
  | zero => intro k H hk; omega
  | succ n ih =>
      intro k H hk
      rw [mipFold_succ]
      unfold mipStep
      by_cases h : k = n
      · subst h
        rw [Function.update_same]
        exact boxValue_congr _ _ _ _ _ _ _ _
          (fun j hj => mipFold_frame srcOff srcW dstOff dstW im k j (Or.inl hj))
          (fun a b ha hb => H k (by omega) a b ha hb)
      · rw [Function.update_noteq (by omega)]
        exact ih k (fun k2 hk2 a b ha hb => H k2 (by omega) a b ha hb) (by omega)

/-! ### GetMipInfo recurrences -/

theorem mipOffset_zero (w : ℕ) : mipOffset w 0 = 0 := rfl

theorem mipWidth_zero (w : ℕ) : mipWidth w 0 = w := rfl

theorem mipOffset_succ (w i : ℕ) :
    mipOffset w (i + 1) = mipOffset w i + mipWidth w i * mipWidth w i * 4 := rfl

theorem mipWidth_succ (w i : ℕ) : mipWidth w (i + 1) = mipWidth w i / 2 := rfl

theorem mipWidth_eq_div_pow (w i : ℕ) : mipWidth w i = w / 2 ^ i := by
  induction i with
  | zero => simp [mipWidth_zero]
  | succ i ih =>
      rw [mipWidth_succ, ih, Nat.div_div_eq_div_mul, pow_succ]

/-- Row-major source reads of a 2x2 box stay below `srcWidth²`. -/
theorem readIdx_lt (sw dW dy dx a b : ℕ) (h2 : 2 * dW ≤ sw) (hdy : dy < dW)
    (hdx : dx < dW) (ha : a ≤ 1) (hb : b ≤ 1) :
    (dy * 2 + a) * sw + (dx * 2 + b) < sw * sw := by
  have h1 : dy * 2 + a + 1 ≤ sw := by omega
  have h3 : dx * 2 + b < sw := by omega
  calc (dy * 2 + a) * sw + (dx * 2 + b)
      < (dy * 2 + a) * sw + sw := Nat.add_lt_add_left h3 _
    _ = (dy * 2 + a + 1) * sw := by ring
    _ ≤ sw * sw := Nat.mul_le_mul_right sw h1

/-- The bound needed by `mipFold_get`, for the actual source/destination
geometry of `MakeMip` at target level `m + 1`. -/
theorem mipReadBound (w m : ℕ) :
    ∀ k2, k2 < mipWidth w (m + 1) * mipWidth w (m + 1) * 4 →
      ∀ a b, a ≤ 1 → b ≤ 1 →
      ((k2 / 4 / mipWidth w (m + 1) * 2 + a) * mipWidth w m +
        (k2 / 4 % mipWidth w (m + 1) * 2 + b)) * 4 + mipOffset w m <
        mipOffset w (m + 1) := by
  intro k2 hk2 a b ha hb
  have hhalf : mipWidth w (m + 1) = mipWidth w m / 2 := mipWidth_succ w m
  have h2 : 2 * mipWidth w (m + 1) ≤ mipWidth w m := by omega
  have hdWpos : 0 < mipWidth w (m + 1) := by
    rcases Nat.eq_zero_or_pos (mipWidth w (m + 1)) with h | h
    · rw [h] at hk2; omega
    · exact h
  have hp : k2 / 4 < mipWidth w (m + 1) * mipWidth w (m + 1) := by
    have := hk2
    generalize mipWidth w (m + 1) * mipWidth w (m + 1) = q at this ⊢
    omega
  have hdy2 : k2 / 4 / mipWidth w (m + 1) < mipWidth w (m + 1) :=
    (Nat.div_lt_iff_lt_mul hdWpos).2 hp
  have hdx2 : k2 / 4 % mipWidth w (m + 1) < mipWidth w (m + 1) :=
    Nat.mod_lt _ hdWpos
  have hread := readIdx_lt (mipWidth w m) (mipWidth w (m + 1))
    (k2 / 4 / mipWidth w (m + 1)) (k2 / 4 % mipWidth w (m + 1)) a b h2 hdy2 hdx2 ha hb
  rw [mipOffset_succ]
  generalize hrr : (k2 / 4 / mipWidth w (m + 1) * 2 + a) * mipWidth w m +
    (k2 / 4 % mipWidth w (m + 1) * 2 + b) = r at hread
  generalize mipWidth w m * mipWidth w m = s at hread ⊢
  omega

theorem makeMip_frame (w : ℕ) (im : Buffer) (i j : ℕ)
    (hj : j < mipOffset w i ∨ mipOffset w i + mipWidth w i * mipWidth w i * 4 ≤ j) :
    makeMip w im i j = im j :=
  mipFold_frame _ _ _ _ im _ j hj

theorem makeMip_dest (w : ℕ) (im : Buffer) (m dy dx c : ℕ)
    (hdy : dy < mipWidth w (m + 1)) (hdx : dx < mipWidth w (m + 1)) (hc : c < 4) :
    makeMip w im (m + 1)
        (mipOffset w (m + 1) + ((dy * mipWidth w (m + 1) + dx) * 4 + c)) =
      boxValue im (mipOffset w m) (mipWidth w m) dy dx c := by
  have hstep : makeMip w im (m + 1) =
      mipFold (mipOffset w m) (mipWidth w m) (mipOffset w (m + 1))
        (mipWidth w (m + 1)) im
        (mipWidth w (m + 1) * mipWidth w (m + 1) * 4) := by
    simp only [makeMip, Nat.add_sub_cancel]
  have hdWpos : 0 < mipWidth w (m + 1) := by omega
  have h1 : dy * mipWidth w (m + 1) + dx < mipWidth w (m + 1) * mipWidth w (m + 1) := by
    calc dy * mipWidth w (m + 1) + dx
        < dy * mipWidth w (m + 1) + mipWidth w (m + 1) := Nat.add_lt_add_left hdx _
      _ = (dy + 1) * mipWidth w (m + 1) := by ring
      _ ≤ mipWidth w (m + 1) * mipWidth w (m + 1) :=
          Nat.mul_le_mul_right _ (by omega)
  have hk : (dy * mipWidth w (m + 1) + dx) * 4 + c <
      mipWidth w (m + 1) * mipWidth w (m + 1) * 4 := by
    generalize hp : dy * mipWidth w (m + 1) + dx = p at h1
    generalize hq : mipWidth w (m + 1) * mipWidth w (m + 1) = q at h1 ⊢
    omega
  have e5 : ((dy * mipWidth w (m + 1) + dx) * 4 + c) / 4 =
      dy * mipWidth w (m + 1) + dx := by
    generalize dy * mipWidth w (m + 1) + dx = p
    omega
  have e4 : ((dy * mipWidth w (m + 1) + dx) * 4 + c) % 4 = c := by
    generalize dy * mipWidth w (m + 1) + dx = p
    omega
  have e7 : (dy * mipWidth w (m + 1) + dx) / mipWidth w (m + 1) = dy := by
    rw [Nat.mul_comm dy, Nat.mul_add_div hdWpos, Nat.div_eq_of_lt hdx, Nat.add_zero]
  have e6 : (dy * mipWidth w (m + 1) + dx) % mipWidth w (m + 1) = dx := by
    rw [Nat.mul_comm dy, Nat.mul_add_mod, Nat.mod_eq_of_lt hdx]
  rw [hstep, mipFold_get _ _ _ _ im _ _ (mipReadBound w m) hk, e5, e7, e6, e4]

/-! ### Characterisation of the InitImage loops -/

theorem initFold_succ (w : ℕ) (im : Buffer) (n : ℕ) :
    initFold w im (n + 1) = initStep w (initFold w im n) n := by
  unfold initFold
  rw [List.range_succ, List.foldl_append]
  rfl

theorem initStep_frame (w : ℕ) (im : Buffer) (i j : ℕ)
    (hj : j < i * 4 ∨ i * 4 + 4 ≤ j) :
    initStep w im i j = im j := by
  unfold initStep
  rw [Function.update_noteq (by omega), Function.update_noteq (by omega),
    Function.update_noteq (by omega), Function.update_noteq (by omega)]

theorem initStep_get0 (w : ℕ) (im : Buffer) (i : ℕ) :
    initStep w im i (i * 4) = ((i % w % 256 : ℕ) : ℚ) := by
  unfold initStep
  rw [Function.update_noteq (by omega), Function.update_noteq (by omega),
    Function.update_noteq (by omega), Function.update_same]

theorem initStep_get1 (w : ℕ) (im : Buffer) (i : ℕ) :
    initStep w im i (i * 4 + 1) = ((i / w % 256 : ℕ) : ℚ) := by
  unfold initStep
  rw [Function.update_noteq (by omega), Function.update_noteq (by omega),
    Function.update_same]

theorem initStep_get2 (w : ℕ) (im : Buffer) (i : ℕ) :
    initStep w im i (i * 4 + 2) = 0 := by
  unfold initStep
  rw [Function.update_noteq (by omega), Function.update_same]

theorem initStep_get3 (w : ℕ) (im : Buffer) (i : ℕ) :
    initStep w im i (i * 4 + 3) = 255 := by
  unfold initStep
  rw [Function.update_same]

theorem initFold_frame (w : ℕ) (im : Buffer) (n j : ℕ) (hj : n * 4 ≤ j) :
    initFold w im n j = im j := by
  induction n with
  | zero => rfl
  | succ n ih =>
      rw [initFold_succ, initStep_frame _ _ _ _ (Or.inr (by omega))]
      exact ih (by omega)

theorem initFold_get (w : ℕ) (im : Buffer) (n : ℕ) :
    ∀ i c, i < n → c < 4 → initFold w im n (i * 4 + c) = gradVal w i c := by
  induction n with
  | zero => intro i c hi hc; omega
  | succ n ih =>
      intro i c hi hc
      rw [initFold_succ]
      by_cases h : i = n
      · subst h
        interval_cases c
        · simpa [gradVal] using initStep_get0 w (initFold w im i) i
        · simpa [gradVal] using initStep_get1 w (initFold w im i) i
        · simpa [gradVal] using initStep_get2 w (initFold w im i) i
        · simpa [gradVal] using initStep_get3 w (initFold w im i) i
      · rw [initStep_frame _ _ _ _ (Or.inl (by omega))]
        exact ih i c (by omega) hc

/-- `w² * 4` elements are at most the whole chain's element count. -/
theorem sq_mul_four_le_total (w : ℕ) : w * w * 4 ≤ totalChannelsMipped w := by
  rcases Nat.eq_zero_or_pos w with h | h
  · subst h
    simp [totalChannelsMipped, totalPixelsMipped_zero]
  · unfold totalChannelsMipped
    rw [totalPixelsMipped_of_ne (by omega)]
    exact Nat.mul_le_mul_right 4 (Nat.le_add_right _ _)

theorem initImage_pixel (w : ℕ) (im : Buffer) (i c : ℕ) (hi : i < w * w)
    (hc : c < 4) : initImage w im (i * 4 + c) = gradVal w i c :=
  initFold_get w _ (w * w) i c hi hc

theorem initImage_zeroRegion (w : ℕ) (im : Buffer) (j : ℕ)
    (h1 : w * w * 4 ≤ j) (h2 : j < totalChannelsMipped w) :
    initImage w im j = 0 := by
  unfold initImage
  rw [initFold_frame _ _ _ _ h1, if_pos h2]

theorem initImage_top (w : ℕ) (im : Buffer) (j : ℕ)
    (h : totalChannelsMipped w ≤ j) : initImage w im j = im j := by
  unfold initImage
  have h1 : w * w * 4 ≤ j := le_trans (sq_mul_four_le_total w) h
  rw [initFold_frame _ _ _ _ h1, if_neg (by omega)]

/-! ### Chain length and total size over powers of two -/

theorem lt_numMips_iff (w : ℕ) : ∀ i, i < numMips w ↔ 2 ^ i ≤ w := by
  induction w using Nat.strong_induction_on with
  | _ w ih =>
      intro i
      rcases Nat.eq_zero_or_pos w with hw | hw
      · subst hw
        rw [numMips_zero]
        have h2 : 0 < 2 ^ i := pow_pos (by norm_num) i
        omega
      · rw [numMips_of_ne (by omega)]
        cases i with
        | zero =>
            have hpos : 0 ≤ numMips (w / 2) := Nat.zero_le _
            simp only [pow_zero]
            omega
        | succ i =>
            rw [pow_succ, ← Nat.le_div_iff_mul_le (by norm_num : (0:ℕ) < 2),
              ← ih (w / 2) (Nat.div_lt_self hw (by norm_num))]
            omega

theorem numMips_two_pow (n : ℕ) : numMips (2 ^ n) = n + 1 := by
  have h1 := (lt_numMips_iff (2 ^ n) n).2 (le_refl _)
  have h2 : ¬(n + 1 < numMips (2 ^ n)) := by
    intro h
    have h3 := (lt_numMips_iff (2 ^ n) (n + 1)).1 h
    have h4 : (2:ℕ) ^ n < 2 ^ (n + 1) :=
      Nat.pow_lt_pow_right (by norm_num) (by omega)
    omega
  omega

theorem totalPixelsMipped_two_pow (n : ℕ) :
    totalPixelsMipped (2 ^ n) = ∑ k in Finset.range (n + 1), (2 ^ n / 2 ^ k) ^ 2 := by
  induction n with
  | zero =>
      rw [pow_zero, totalPixelsMipped_one]
      simp
  | succ n ih =>
      have h2 : (2:ℕ) ^ (n + 1) ≠ 0 := by positivity
      have hhalf : (2:ℕ) ^ (n + 1) / 2 = 2 ^ n := by
        rw [pow_succ, Nat.mul_div_cancel _ (by norm_num)]
      have hstep : ∀ k, 2 ^ (n + 1) / 2 ^ (k + 1) = 2 ^ n / 2 ^ k := by
        intro k
        calc 2 ^ (n + 1) / 2 ^ (k + 1)
            = 2 ^ (n + 1) / (2 ^ k * 2) := by rw [pow_succ 2 k]
          _ = 2 ^ (n + 1) / 2 / 2 ^ k := by
              rw [Nat.div_div_eq_div_mul, Nat.mul_comm]
          _ = 2 ^ n / 2 ^ k := by rw [hhalf]
      have hsum : ∑ k in Finset.range (n + 1 + 1), (2 ^ (n + 1) / 2 ^ k) ^ 2 =
          (∑ k in Finset.range (n + 1), (2 ^ (n + 1) / 2 ^ (k + 1)) ^ 2) +
            (2 ^ (n + 1) / 2 ^ 0) ^ 2 := Finset.sum_range_succ' _ _
      rw [totalPixelsMipped_of_ne h2, hhalf, ih, hsum]
      simp only [hstep, pow_zero, Nat.div_one]
      ring

/-- While `2^i ≤ w`, level `i`'s offset plus the sizes of the remaining
levels (computed from level `i`'s width) accounts for the whole buffer. -/
theorem mipLayout (w : ℕ) : ∀ i, 2 ^ i ≤ w →
    mipOffset w i + 4 * totalPixelsMipped (mipWidth w i) =
      4 * totalPixelsMipped w := by
  intro i
  induction i with
  | zero =>
      intro _
      rw [mipOffset_zero, mipWidth_zero, Nat.zero_add]
  | succ i ih =>
      intro h
      have hi : 2 ^ i ≤ w :=
        le_trans (Nat.pow_le_pow_right (by norm_num) (by omega)) h
      have hw : mipWidth w i ≠ 0 := by
        rw [mipWidth_eq_div_pow]
        have h1 : 1 ≤ w / 2 ^ i :=
          (Nat.one_le_div_iff (pow_pos (by norm_num) i)).2 hi
        omega
      have hrec := ih hi
      rw [totalPixelsMipped_of_ne hw] at hrec
      rw [mipOffset_succ, mipWidth_succ]
      generalize mipWidth w i * mipWidth w i = A at hrec ⊢
      omega

/-- Every level with `2^i ≤ w` lies entirely inside the buffer. -/
theorem mipRegion_le_total (w i : ℕ) (h : 2 ^ i ≤ w) :
    mipOffset w i + mipWidth w i * mipWidth w i * 4 ≤ totalChannelsMipped w := by
  have hlay := mipLayout w i h
  have hw : mipWidth w i ≠ 0 := by
    rw [mipWidth_eq_div_pow]
    have h1 : 1 ≤ w / 2 ^ i :=
      (Nat.one_le_div_iff (pow_pos (by norm_num) i)).2 h
    omega
  rw [totalPixelsMipped_of_ne hw] at hlay
  unfold totalChannelsMipped
  generalize mipWidth w i * mipWidth w i = A at hlay ⊢
  omega

theorem totalChannels_two : totalChannelsMipped 2 = 20 := by
  unfold totalChannelsMipped
  rw [totalPixelsMipped_two]

theorem totalChannels_four : totalChannelsMipped 4 = 84 := by
  unfold totalChannelsMipped
  rw [totalPixelsMipped_four]

/-- C4: for every level index `i` with `i + 1` still in the chain,
`GetMipInfo(i).offset + GetMipInfo(i).width² * 4 = GetMipInfo(i+1).offset`
(the levels are laid out contiguously with no gaps), and `GetMipInfo(0)`
returns offset 0 and the configured base width. -/
theorem C4_layout_contiguous :
    getMipInfo IMAGE_SIZE 0 = (0, IMAGE_SIZE) ∧
    ∀ i, i + 1 < numMips IMAGE_SIZE →
      (getMipInfo IMAGE_SIZE i).1 +
          (getMipInfo IMAGE_SIZE i).2 * (getMipInfo IMAGE_SIZE i).2 * 4 =
        (getMipInfo IMAGE_SIZE (i + 1)).1 := by
  exact ⟨rfl, fun i _ => rfl⟩

/-- C4 witness: the contiguity equation instantiated at level index 0. -/
theorem C4_witness :
    (0 + 1 < numMips IMAGE_SIZE) ∧
    (getMipInfo IMAGE_SIZE 0).1 +
        (getMipInfo IMAGE_SIZE 0).2 * (getMipInfo IMAGE_SIZE 0).2 * 4 =
      (getMipInfo IMAGE_SIZE (0 + 1)).1 := by
  have hn : numMips IMAGE_SIZE = 10 := by
    show numMips 512 = 10
    rw [show (512:ℕ) = 2 ^ 9 by norm_num, numMips_two_pow]
  exact ⟨by omega, C4_layout_contiguous.2 0 (by omega)⟩

/-- C5: for base width `2^n`, the total element count of the full chain,
`TotalChannelsMipped()`, equals `Σ_(k=0..n) (2^n / 2^k)² * 4`. -/
theorem C5_totalChannels (n : ℕ) :
    totalChannelsMipped (2 ^ n) =
      ∑ k in Finset.range (n + 1), (2 ^ n / 2 ^ k) ^ 2 * 4 := by
  unfold totalChannelsMipped
  rw [totalPixelsMipped_two_pow, Finset.sum_mul]

/-- C6: for base width `2^n`, `NumMips()` returns `log2(2^n) + 1 = n + 1`
levels, and the last materialized level has width 1. -/
theorem C6_numMips (n : ℕ) :
    numMips (2 ^ n) = n + 1 ∧ mipWidth (2 ^ n) (numMips (2 ^ n) - 1) = 1 := by
  refine ⟨numMips_two_pow n, ?_⟩
  rw [numMips_two_pow, Nat.add_sub_cancel, mipWidth_eq_div_pow,
    Nat.div_self (pow_pos (by norm_num) n)]

/-- C7: after `InitImage` on a buffer of `TotalChannelsMipped()` elements,
level-0 pixel `(x, y)` holds channel values
`(x mod 256, y mod 256, 0, 255)`, and every element of levels 1 and above
(index at least `w² * 4`, below the total element count) is zero. -/
theorem C7_initImage (w : ℕ) (b : Buffer) (x y : ℕ) (hx : x < w) (hy : y < w)
    (j : ℕ) (hj1 : w * w * 4 ≤ j) (hj2 : j < totalChannelsMipped w) :
    (initImage w b ((y * w + x) * 4 + 0) = ((x % 256 : ℕ) : ℚ) ∧
     initImage w b ((y * w + x) * 4 + 1) = ((y % 256 : ℕ) : ℚ) ∧
     initImage w b ((y * w + x) * 4 + 2) = 0 ∧
     initImage w b ((y * w + x) * 4 + 3) = 255) ∧
    initImage w b j = 0 := by
  have hi : y * w + x < w * w := by
    calc y * w + x < y * w + w := Nat.add_lt_add_left hx _
      _ = (y + 1) * w := by ring
      _ ≤ w * w := Nat.mul_le_mul_right _ (by omega)
  have hxy : (y * w + x) % w = x := by
    rw [Nat.mul_comm y, Nat.mul_add_mod, Nat.mod_eq_of_lt hx]
  have hwpos : 0 < w := by omega
  have hyx : (y * w + x) / w = y := by
    rw [Nat.mul_comm y, Nat.mul_add_div hwpos, Nat.div_eq_of_lt hx, Nat.add_zero]
  refine ⟨⟨?_, ?_, ?_, ?_⟩, initImage_zeroRegion w b j hj1 hj2⟩
  · rw [initImage_pixel w b _ 0 hi (by norm_num)]
    simp [gradVal, hxy]
  · rw [initImage_pixel w b _ 1 hi (by norm_num)]
    simp [gradVal, hyx]
  · rw [initImage_pixel w b _ 2 hi (by norm_num)]
    simp [gradVal]
  · rw [initImage_pixel w b _ 3 hi (by norm_num)]
    simp [gradVal]

/-- C7 witness: base width 2, arbitrary initial contents 7, pixel
`(x, y) = (1, 0)` gets `(1, 0, 0, 255)` and element 16 (inside level 1) is
zeroed. -/
theorem C7_witness :
    ((1:ℕ) < 2 ∧ (0:ℕ) < 2 ∧ 2 * 2 * 4 ≤ 16 ∧ 16 < totalChannelsMipped 2) ∧
    ((initImage 2 (fun _ => 7) ((0 * 2 + 1) * 4 + 0) = ((1 % 256 : ℕ) : ℚ) ∧
      initImage 2 (fun _ => 7) ((0 * 2 + 1) * 4 + 1) = ((0 % 256 : ℕ) : ℚ) ∧
      initImage 2 (fun _ => 7) ((0 * 2 + 1) * 4 + 2) = 0 ∧
      initImage 2 (fun _ => 7) ((0 * 2 + 1) * 4 + 3) = 255) ∧
     initImage 2 (fun _ => 7) 16 = 0) := by
  have h16 : 16 < totalChannelsMipped 2 := by rw [totalChannels_two]; norm_num
  have h := C7_initImage 2 (fun _ => 7) 1 0 (by norm_num) (by norm_num) 16
    (by norm_num) h16
  exact ⟨⟨by norm_num, by norm_num, by norm_num, h16⟩, h⟩

/-- C9: for base width `2^n` and any mip level `1 ≤ i < NumMips()`, every
buffer index `MakeMip` writes (the running cursor over the target region)
and every index it reads (the four box-filter taps) is below
`TotalChannelsMipped()`, as is every index `InitImage` writes (its gradient
stores all lie below `w² * 4`). -/
theorem C9_inBounds (n i k dy dx a b : ℕ) (hi1 : 1 ≤ i)
    (hi2 : i < numMips (2 ^ n))
    (hk : k < mipWidth (2 ^ n) i * mipWidth (2 ^ n) i * 4)
    (hdy : dy < mipWidth (2 ^ n) i) (hdx : dx < mipWidth (2 ^ n) i)
    (ha : a ≤ 1) (hb : b ≤ 1) :
    makeMipWriteIdx (2 ^ n) i k < totalChannelsMipped (2 ^ n) ∧
    makeMipReadIdx (2 ^ n) i dy dx a b < totalChannelsMipped (2 ^ n) ∧
    2 ^ n * 2 ^ n * 4 ≤ totalChannelsMipped (2 ^ n) := by
  obtain ⟨m, rfl⟩ : ∃ m, i = m + 1 := ⟨i - 1, by omega⟩
  have hw2 : 2 ^ (m + 1) ≤ 2 ^ n := (lt_numMips_iff (2 ^ n) (m + 1)).1 hi2
  have hw1 : 2 ^ m ≤ 2 ^ n :=
    le_trans (Nat.pow_le_pow_right (by norm_num) (by omega)) hw2
  have hreg1 := mipRegion_le_total (2 ^ n) (m + 1) hw2
  have hreg0 := mipRegion_le_total (2 ^ n) m hw1
  refine ⟨?_, ?_, sq_mul_four_le_total (2 ^ n)⟩
  · unfold makeMipWriteIdx
    generalize mipWidth (2 ^ n) (m + 1) * mipWidth (2 ^ n) (m + 1) = A at hreg1 hk
    omega
  · unfold makeMipReadIdx
    simp only [Nat.add_sub_cancel]
    have hhalf : mipWidth (2 ^ n) (m + 1) = mipWidth (2 ^ n) m / 2 :=
      mipWidth_succ _ m
    have h2 : 2 * mipWidth (2 ^ n) (m + 1) ≤ mipWidth (2 ^ n) m := by omega
    have hr := readIdx_lt (mipWidth (2 ^ n) m) (mipWidth (2 ^ n) (m + 1))
      dy dx a b h2 hdy hdx ha hb
    generalize (dy * 2 + a) * mipWidth (2 ^ n) m + (dx * 2 + b) = R at hr ⊢
    generalize mipWidth (2 ^ n) m * mipWidth (2 ^ n) m = S at hr hreg0
    omega

/-- C9 witness: base width 2, level 1, write cursor 0 and the read at
corner `(1, 1)` of destination pixel `(0, 0)` are in bounds. -/
theorem C9_witness :
    ((1:ℕ) ≤ 1 ∧ 1 < numMips (2 ^ 1) ∧
      0 < mipWidth (2 ^ 1) 1 * mipWidth (2 ^ 1) 1 * 4 ∧
      (0:ℕ) < mipWidth (2 ^ 1) 1 ∧ (1:ℕ) ≤ 1) ∧
    (makeMipWriteIdx (2 ^ 1) 1 0 < totalChannelsMipped (2 ^ 1) ∧
     makeMipReadIdx (2 ^ 1) 1 0 0 1 1 < totalChannelsMipped (2 ^ 1) ∧
     2 ^ 1 * 2 ^ 1 * 4 ≤ totalChannelsMipped (2 ^ 1)) := by
  have hn : 1 < numMips (2 ^ 1) := by rw [numMips_two_pow]; omega
  have hw : (0:ℕ) < mipWidth (2 ^ 1) 1 := by decide
  have h := C9_inBounds 1 1 0 0 0 1 1 le_rfl hn (by decide) hw hw le_rfl le_rfl
  exact ⟨⟨le_rfl, hn, by decide, hw, le_rfl⟩, h⟩

/-- C1: evaluation of `MakeMip` at base width 2, level 1, destination pixel
`(0,0)`, channel 3, after `InitImage`.  The four source pixels hold channel-3
value 255, so the claimed per-channel box filter would give 255; the code
instead reads the four channel-0 values `0, 1, 0, 1` and adds the channel
index 3 to each (`image[...] + channel`), producing `14/4 = 7/2`. -/
theorem C1_code_eval :
    makeMip 2 (initImage 2 (fun _ => 0)) 1 19 = 7 / 2 ∧ (7 / 2 : ℚ) ≠ 255 := by
  constructor
  · have h := makeMip_dest 2 (initImage 2 (fun _ => 0)) 0 0 0 3
      (by decide) (by decide) (by norm_num)
    have e0 := initImage_pixel 2 (fun _ => 0) 0 0 (by norm_num) (by norm_num)
    have e1 := initImage_pixel 2 (fun _ => 0) 1 0 (by norm_num) (by norm_num)
    have e2 := initImage_pixel 2 (fun _ => 0) 2 0 (by norm_num) (by norm_num)
    have e3 := initImage_pixel 2 (fun _ => 0) 3 0 (by norm_num) (by norm_num)
    norm_num [gradVal] at e0 e1 e2 e3
    have hbox : boxValue (initImage 2 (fun _ => 0)) (mipOffset 2 0) (mipWidth 2 0)
        0 0 3 = 7 / 2 := by
      norm_num [boxValue, mipOffset, mipWidth, getMipInfo, e0, e1, e2, e3]
    rw [hbox] at h
    exact h
  · norm_num

/-- C3: evaluation of `MakeMip` on a buffer that is constant 7 everywhere
(base width 2, level 1, destination pixel `(0,0)`, channel 1).  The claimed
contraction-on-constants would give 7; the code's `image[...] + channel`
accumulation gives `(4 * (7 + 1)) / 4 = 8`. -/
theorem C3_code_eval :
    makeMip 2 (fun _ => (7:ℚ)) 1 17 = 8 ∧ (8:ℚ) ≠ 7 := by
  constructor
  · have h := makeMip_dest 2 (fun _ => (7:ℚ)) 0 0 0 1
      (by decide) (by decide) (by norm_num)
    have hbox : boxValue (fun _ => (7:ℚ)) (mipOffset 2 0) (mipWidth 2 0) 0 0 1 = 8 := by
      norm_num [boxValue]
    rw [hbox] at h
    exact h
  · norm_num

/-- C2: for base width 4 the structural facts hold — 3 levels of widths
4, 2, 1 and `(16+4+1)*4 = 84` buffer elements — but after
`InitImage` + `MakeMips`, level-1 pixel `(0,0)` channel 1 (buffer index 65)
holds `3/2`, not the claimed per-channel average `1/2` of the gradient's
channel-1 values: the code averages the four channel-0 values `0, 1, 0, 1`
and adds the channel index 1 to each. -/
theorem C2_code_eval :
    numMips 4 = 3 ∧ mipWidth 4 0 = 4 ∧ mipWidth 4 1 = 2 ∧ mipWidth 4 2 = 1 ∧
    totalChannelsMipped 4 = 84 ∧
    makeMips 4 (initImage 4 (fun _ => 0)) 65 = 3 / 2 ∧ (3 / 2 : ℚ) ≠ 1 / 2 := by
  refine ⟨numMips_four, by decide, by decide, by decide, totalChannels_four, ?_, by norm_num⟩
  have hm : makeMips 4 (initImage 4 (fun _ => 0)) =
      makeMip 4 (makeMip 4 (initImage 4 (fun _ => 0)) 1) 2 := by
    unfold makeMips
    rw [numMips_four]
    rfl
  rw [hm, makeMip_frame 4 _ 2 65 (Or.inl (by decide))]
  have h := makeMip_dest 4 (initImage 4 (fun _ => 0)) 0 0 0 1
    (by decide) (by decide) (by norm_num)
  have e0 := initImage_pixel 4 (fun _ => 0) 0 0 (by norm_num) (by norm_num)
  have e1 := initImage_pixel 4 (fun _ => 0) 1 0 (by norm_num) (by norm_num)
  have e4 := initImage_pixel 4 (fun _ => 0) 4 0 (by norm_num) (by norm_num)
  have e5 := initImage_pixel 4 (fun _ => 0) 5 0 (by norm_num) (by norm_num)
  norm_num [gradVal] at e0 e1 e4 e5
  have hbox : boxValue (initImage 4 (fun _ => 0)) (mipOffset 4 0) (mipWidth 4 0)
      0 0 1 = 3 / 2 := by
    norm_num [boxValue, mipOffset, mipWidth, getMipInfo, e0, e1, e4, e5]
  rw [hbox] at h
  exact h

/-- C8 counterexample: it is false that `MakeMip` touches (reads or writes)
no region other than the target level.  At base width 2, level 1, two
buffers that agree on the whole target region but differ at source-level
element 0 produce different target values, so the source region is read. -/
theorem C8_counterexample :
    ¬ (∀ (b1 b2 : Buffer),
        (∀ j, mipOffset 2 1 ≤ j →
            j < mipOffset 2 1 + mipWidth 2 1 * mipWidth 2 1 * 4 → b1 j = b2 j) →
        ∀ j, mipOffset 2 1 ≤ j →
          j < mipOffset 2 1 + mipWidth 2 1 * mipWidth 2 1 * 4 →
          makeMip 2 b1 1 j = makeMip 2 b2 1 j) := by
  intro h
  have hagree : ∀ j, mipOffset 2 1 ≤ j →
      j < mipOffset 2 1 + mipWidth 2 1 * mipWidth 2 1 * 4 →
      (fun _ => (0:ℚ)) j = (fun j => if j = 0 then (4:ℚ) else 0) j := by
    intro j hj1 _
    have h16 : mipOffset 2 1 = 16 := rfl
    show (0:ℚ) = if j = 0 then (4:ℚ) else 0
    rw [if_neg (by omega)]
  have heq := h _ _ hagree 16 (by decide) (by decide)
  have h1 : makeMip 2 (fun _ => (0:ℚ)) 1 16 = 0 := by
    have hd := makeMip_dest 2 (fun _ => (0:ℚ)) 0 0 0 0
      (by decide) (by decide) (by norm_num)
    have hbox : boxValue (fun _ => (0:ℚ)) (mipOffset 2 0) (mipWidth 2 0) 0 0 0 = 0 := by
      norm_num [boxValue]
    rw [hbox] at hd
    exact hd
  have h2 : makeMip 2 (fun j => if j = 0 then (4:ℚ) else 0) 1 16 = 1 := by
    have hd := makeMip_dest 2 (fun j => if j = 0 then (4:ℚ) else 0) 0 0 0 0
      (by decide) (by decide) (by norm_num)
    have hbox : boxValue (fun j => if j = 0 then (4:ℚ) else 0)
        (mipOffset 2 0) (mipWidth 2 0) 0 0 0 = 1 := by
      norm_num [boxValue, mipOffset, mipWidth, getMipInfo]
    rw [hbox] at hd
    exact hd
  rw [h1, h2] at heq
  norm_num at heq

/-- C8 (amended): `MakeMip` for target level `i ≥ 1` writes only the target
level's region — every element outside `[offset_i, offset_i + width_i²*4)`
is unchanged — and reads only the source level's region: if two buffers
agree on the source region, the resulting target regions agree. -/
theorem C8_frame_and_reads (w : ℕ) (b1 b2 : Buffer) (i : ℕ) (hi : 1 ≤ i)
    (hagree : ∀ j, mipOffset w (i - 1) ≤ j →
      j < mipOffset w (i - 1) + mipWidth w (i - 1) * mipWidth w (i - 1) * 4 →
      b1 j = b2 j) :
    (∀ j, j < mipOffset w i ∨ mipOffset w i + mipWidth w i * mipWidth w i * 4 ≤ j →
        makeMip w b1 i j = b1 j) ∧
    (∀ j, mipOffset w i ≤ j → j < mipOffset w i + mipWidth w i * mipWidth w i * 4 →
        makeMip w b1 i j = makeMip w b2 i j) := by
  obtain ⟨m, rfl⟩ : ∃ m, i = m + 1 := ⟨i - 1, by omega⟩
  simp only [Nat.add_sub_cancel] at hagree
  refine ⟨fun j hj => makeMip_frame w b1 (m + 1) j hj, ?_⟩
  intro j hj1 hj2
  obtain ⟨k, rfl⟩ : ∃ k, j = mipOffset w (m + 1) + k :=
    ⟨j - mipOffset w (m + 1), by omega⟩
  have hk : k < mipWidth w (m + 1) * mipWidth w (m + 1) * 4 := by omega
  have hstep1 : makeMip w b1 (m + 1) =
      mipFold (mipOffset w m) (mipWidth w m) (mipOffset w (m + 1))
        (mipWidth w (m + 1)) b1 (mipWidth w (m + 1) * mipWidth w (m + 1) * 4) := by
    simp only [makeMip, Nat.add_sub_cancel]
  have hstep2 : makeMip w b2 (m + 1) =
      mipFold (mipOffset w m) (mipWidth w m) (mipOffset w (m + 1))
        (mipWidth w (m + 1)) b2 (mipWidth w (m + 1) * mipWidth w (m + 1) * 4) := by
    simp only [makeMip, Nat.add_sub_cancel]
  rw [hstep1, hstep2,
    mipFold_get _ _ _ _ b1 _ k (mipReadBound w m) hk,
    mipFold_get _ _ _ _ b2 _ k (mipReadBound w m) hk]
  unfold boxValue
  rw [hagree _ (Nat.le_add_left _ _) (mipReadBound w m k hk 0 0 (by omega) (by omega)),
    hagree _ (Nat.le_add_left _ _) (mipReadBound w m k hk 0 1 (by omega) (by omega)),
    hagree _ (Nat.le_add_left _ _) (mipReadBound w m k hk 1 0 (by omega) (by omega)),
    hagree _ (Nat.le_add_left _ _) (mipReadBound w m k hk 1 1 (by omega) (by omega))]

/-- C8 witness: the amended frame property at base width 2, level 1:
element 3 (inside the source level) is untouched. -/
theorem C8_witness :
    ((1:ℕ) ≤ 1 ∧ (∀ j, mipOffset 2 (1 - 1) ≤ j →
        j < mipOffset 2 (1 - 1) + mipWidth 2 (1 - 1) * mipWidth 2 (1 - 1) * 4 →
        (fun _ => (3:ℚ)) j = (fun _ => (3:ℚ)) j)) ∧
    makeMip 2 (fun _ => (3:ℚ)) 1 3 = 3 := by
  have h := (C8_frame_and_reads 2 (fun _ => (3:ℚ)) (fun _ => (3:ℚ)) 1 le_rfl
    (fun _ _ _ => rfl)).1 3 (Or.inl (by decide))
  exact ⟨⟨le_rfl, fun _ _ _ => rfl⟩, h⟩

/-! ### Refinement between the list-backed and function-backed models -/

theorem set_update_agree (T : ℕ) (l : BufferL) (f : Buffer) (a : ℕ) (v : ℚ)
    (hlen : l.length = T) (hag : ∀ j, j < T → getL l j = f j) (haT : a < T) :
    (l.set a v).length = T ∧
    ∀ j, j < T → getL (l.set a v) j = Function.update f a v j := by
  refine ⟨by rw [List.length_set, hlen], ?_⟩
  intro j hj
  by_cases h : j = a
  · subst h
    rw [Function.update_same]
    unfold getL
    rw [List.getD_eq_getElem?_getD, List.getElem?_set_self (by omega)]
    rfl
  · rw [Function.update_noteq h]
    have hg := hag j hj
    unfold getL at hg ⊢
    rw [List.getD_eq_getElem?_getD, List.getElem?_set_ne (by omega),
      ← List.getD_eq_getElem?_getD]
    exact hg

theorem mipStepL_agree (srcOff srcW dstOff dstW T : ℕ) (l : BufferL) (f : Buffer)
    (k : ℕ) (hlen : l.length = T) (hag : ∀ j, j < T → getL l j = f j)
    (hw : dstOff + k < T)
    (hreads : ∀ a b, a ≤ 1 → b ≤ 1 →
      ((k / 4 / dstW * 2 + a) * srcW + (k / 4 % dstW * 2 + b)) * 4 + srcOff < T) :
    (mipStepL srcOff srcW dstOff dstW l k).length = T ∧
    ∀ j, j < T → getL (mipStepL srcOff srcW dstOff dstW l k) j =
      mipStep srcOff srcW dstOff dstW f k j := by
  have hbox : boxValueL l srcOff srcW (k / 4 / dstW) (k / 4 % dstW) (k % 4) =
      boxValue f srcOff srcW (k / 4 / dstW) (k / 4 % dstW) (k % 4) := by
    unfold boxValueL boxValue
    rw [hag _ (hreads 0 0 (by omega) (by omega)),
      hag _ (hreads 0 1 (by omega) (by omega)),
      hag _ (hreads 1 0 (by omega) (by omega)),
      hag _ (hreads 1 1 (by omega) (by omega))]
  unfold mipStepL mipStep
  rw [hbox]
  exact set_update_agree T l f _ _ hlen hag hw

theorem mipFoldL_succ (srcOff srcW dstOff dstW : ℕ) (l : BufferL) (n : ℕ) :
    mipFoldL srcOff srcW dstOff dstW l (n + 1) =
      mipStepL srcOff srcW dstOff dstW (mipFoldL srcOff srcW dstOff dstW l n) n := by
  unfold mipFoldL
  rw [List.range_succ, List.foldl_append]
  rfl

theorem mipFold_agree (srcOff srcW dstOff dstW T : ℕ) (n : ℕ) (l : BufferL)
    (f : Buffer) (hlen : l.length = T) (hag : ∀ j, j < T → getL l j = f j)
    (hw : ∀ k, k < n → dstOff + k < T)
    (hr : ∀ k, k < n → ∀ a b, a ≤ 1 → b ≤ 1 →
      ((k / 4 / dstW * 2 + a) * srcW + (k / 4 % dstW * 2 + b)) * 4 + srcOff < T) :
    (mipFoldL srcOff srcW dstOff dstW l n).length = T ∧
    ∀ j, j < T → getL (mipFoldL srcOff srcW dstOff dstW l n) j =
      mipFold srcOff srcW dstOff dstW f n j := by
  induction n with
  | zero => exact ⟨hlen, hag⟩
  | succ n ih =>
      rw [mipFoldL_succ, mipFold_succ]
      have base := ih (fun k hk => hw k (by omega))
        (fun k hk => hr k (by omega))
      exact mipStepL_agree srcOff srcW dstOff dstW T _ _ n base.1 base.2
        (hw n (by omega)) (hr n (by omega))

theorem makeMip_agree (w m : ℕ) (hm : 2 ^ (m + 1) ≤ w) (l : BufferL) (f : Buffer)
    (hlen : l.length = totalChannelsMipped w)
    (hag : ∀ j, j < totalChannelsMipped w → getL l j = f j) :
    (makeMipL w l (m + 1)).length = totalChannelsMipped w ∧
    ∀ j, j < totalChannelsMipped w →
      getL (makeMipL w l (m + 1)) j = makeMip w f (m + 1) j := by
  have hreg1 := mipRegion_le_total w (m + 1) hm
  have hstepL : makeMipL w l (m + 1) =
      mipFoldL (mipOffset w m) (mipWidth w m) (mipOffset w (m + 1))
        (mipWidth w (m + 1)) l (mipWidth w (m + 1) * mipWidth w (m + 1) * 4) := by
    simp only [makeMipL, Nat.add_sub_cancel]
  have hstepF : makeMip w f (m + 1) =
      mipFold (mipOffset w m) (mipWidth w m) (mipOffset w (m + 1))
        (mipWidth w (m + 1)) f (mipWidth w (m + 1) * mipWidth w (m + 1) * 4) := by
    simp only [makeMip, Nat.add_sub_cancel]
  rw [hstepL]
  have hres := mipFold_agree (mipOffset w m) (mipWidth w m) (mipOffset w (m + 1))
    (mipWidth w (m + 1)) (totalChannelsMipped w)
    (mipWidth w (m + 1) * mipWidth w (m + 1) * 4) l f hlen hag
    (by
      intro k hk
      generalize mipWidth w (m + 1) * mipWidth w (m + 1) = A at hreg1 hk
      omega)
    (by
      intro k hk a b ha hb
      have hrb := mipReadBound w m k hk a b ha hb
      have hle : mipOffset w (m + 1) ≤ totalChannelsMipped w :=
        le_trans (Nat.le_add_right _ _) hreg1
      generalize (k / 4 / mipWidth w (m + 1) * 2 + a) * mipWidth w m +
        (k / 4 % mipWidth w (m + 1) * 2 + b) = R at hrb ⊢
      omega)
  refine ⟨hres.1, ?_⟩
  intro j hj
  rw [hres.2 j hj, hstepF]

theorem mem_drop_one_range (n i : ℕ) (h : i ∈ (List.range n).drop 1) :
    1 ≤ i ∧ i < n := by
  cases n with
  | zero => simp [List.range_zero] at h
  | succ m =>
      rw [List.range_succ_eq_map] at h
      rw [show ((0 : ℕ) :: (List.range m).map Nat.succ).drop 1 =
        (List.range m).map Nat.succ from rfl] at h
      obtain ⟨j, hj, rfl⟩ := List.mem_map.1 h
      have := List.mem_range.1 hj
      omega

theorem foldLevels_agree (w : ℕ) :
    ∀ (L : List ℕ), (∀ i, i ∈ L → 1 ≤ i ∧ i < numMips w) →
    ∀ (l : BufferL) (f : Buffer), l.length = totalChannelsMipped w →
    (∀ j, j < totalChannelsMipped w → getL l j = f j) →
    (L.foldl (fun b i => makeMipL w b i) l).length = totalChannelsMipped w ∧
    ∀ j, j < totalChannelsMipped w →
      getL (L.foldl (fun b i => makeMipL w b i) l) j =
        L.foldl (fun b i => makeMip w b i) f j := by
  intro L
  induction L with
  | nil => intro _ l f hlen hag; exact ⟨hlen, hag⟩
  | cons i L ih =>
      intro hmem l f hlen hag
      obtain ⟨m, rfl⟩ : ∃ m, i = m + 1 :=
        ⟨i - 1, by have := (hmem i (List.mem_cons_self _ _)).1; omega⟩
      have h1 := hmem (m + 1) (List.mem_cons_self _ _)
      have hm : 2 ^ (m + 1) ≤ w := (lt_numMips_iff w (m + 1)).1 h1.2
      have step := makeMip_agree w m hm l f hlen hag
      simp only [List.foldl_cons]
      exact ih (fun i2 hi2 => hmem i2 (List.mem_cons_of_mem _ hi2)) _ _ step.1 step.2

theorem makeMips_agree (w : ℕ) (l : BufferL) (f : Buffer)
    (hlen : l.length = totalChannelsMipped w)
    (hag : ∀ j, j < totalChannelsMipped w → getL l j = f j) :
    (makeMipsL w l).length = totalChannelsMipped w ∧
    ∀ j, j < totalChannelsMipped w → getL (makeMipsL w l) j = makeMips w f j := by
  unfold makeMipsL makeMips
  exact foldLevels_agree w _ (fun i hi => mem_drop_one_range _ i hi) l f hlen hag

theorem initStepL_agree (w T : ℕ) (l : BufferL) (f : Buffer) (i : ℕ)
    (hlen : l.length = T) (hag : ∀ j, j < T → getL l j = f j)
    (hiT : i * 4 + 3 < T) :
    (initStepL w l i).length = T ∧
    ∀ j, j < T → getL (initStepL w l i) j = initStep w f i j := by
  unfold initStepL initStep
  have s0 := set_update_agree T l f (i * 4) ((i % w % 256 : ℕ) : ℚ)
    hlen hag (by omega)
  have s1 := set_update_agree T _ _ (i * 4 + 1) ((i / w % 256 : ℕ) : ℚ)
    s0.1 s0.2 (by omega)
  have s2 := set_update_agree T _ _ (i * 4 + 2) (0 : ℚ) s1.1 s1.2 (by omega)
  exact set_update_agree T _ _ (i * 4 + 3) (255 : ℚ) s2.1 s2.2 (by omega)

theorem initFoldL_succ (w : ℕ) (l : BufferL) (n : ℕ) :
    initFoldL w l (n + 1) = initStepL w (initFoldL w l n) n := by
  unfold initFoldL
  rw [List.range_succ, List.foldl_append]
  rfl

theorem initFold_agree (w T : ℕ) (hT : w * w * 4 ≤ T) (n : ℕ) (hn : n ≤ w * w)
    (l : BufferL) (f : Buffer) (hlen : l.length = T)
    (hag : ∀ j, j < T → getL l j = f j) :
    (initFoldL w l n).length = T ∧
    ∀ j, j < T → getL (initFoldL w l n) j = initFold w f n j := by
  induction n with
  | zero => exact ⟨hlen, hag⟩
  | succ n ih =>
      rw [initFoldL_succ, initFold_succ]
      have base := ih (by omega)
      refine initStepL_agree w T _ _ n base.1 base.2 ?_
      generalize w * w = P at hT hn
      omega

theorem initImage_agree (w : ℕ) (l : BufferL) (f : Buffer)
    (hlen : l.length = totalChannelsMipped w) :
    (initImageL w l).length = totalChannelsMipped w ∧
    ∀ j, j < totalChannelsMipped w → getL (initImageL w l) j = initImage w f j := by
  unfold initImageL initImage
  refine initFold_agree w (totalChannelsMipped w) (sq_mul_four_le_total w)
    (w * w) le_rfl _ _ (by rw [List.length_map, hlen]) ?_
  intro j hj
  show getL (l.map fun _ => 0) j = if j < totalChannelsMipped w then 0 else f j
  rw [if_pos hj]
  unfold getL
  rw [List.getD_eq_getElem?_getD, List.getElem?_map,
    List.getElem?_eq_getElem (by omega)]
  simp

/-- C10: the computation is deterministic and storage-strategy independent:
a list-backed run (`std::vector` / `malloc` model, arbitrary initial
contents `l` of the correct length) and function-backed runs
(`std::array` model, arbitrary initial contents `b`, `f`) of
`InitImage` followed by `MakeMips` produce identical channel values at every
buffer index, regardless of the initial contents. -/
theorem C10_storage_independent (w : ℕ) (l : BufferL) (b f : Buffer)
    (hlen : l.length = totalChannelsMipped w) (j : ℕ)
    (hj : j < totalChannelsMipped w) :
    getL (makeMipsL w (initImageL w l)) j = makeMips w (initImage w f) j ∧
    makeMips w (initImage w b) j = makeMips w (initImage w f) j := by
  have hb := initImage_agree w l b hlen
  have hf := initImage_agree w l f hlen
  have hmb := makeMips_agree w _ _ hb.1 hb.2
  have hmf := makeMips_agree w _ _ hf.1 hf.2
  exact ⟨hmf.2 j hj, by rw [← hmb.2 j hj, hmf.2 j hj]⟩

/-- C10 witness: base width 2, a list buffer initially all 5, function
buffers initially all 9 and all 0, at buffer index 17. -/
theorem C10_witness :
    ((List.replicate 20 (5:ℚ)).length = totalChannelsMipped 2 ∧ 17 < totalChannelsMipped 2) ∧
    (getL (makeMipsL 2 (initImageL 2 (List.replicate 20 (5:ℚ)))) 17 =
        makeMips 2 (initImage 2 (fun _ => 0)) 17 ∧
      makeMips 2 (initImage 2 (fun _ => 9)) 17 =
        makeMips 2 (initImage 2 (fun _ => 0)) 17) := by
  have hlen : (List.replicate 20 (5:ℚ)).length = totalChannelsMipped 2 := by
    rw [List.length_replicate, totalChannels_two]
  have hj : 17 < totalChannelsMipped 2 := by rw [totalChannels_two]; norm_num
  exact ⟨⟨hlen, hj⟩,
    C10_storage_independent 2 (List.replicate 20 (5:ℚ)) (fun _ => 9) (fun _ => 0)
      hlen 17 hj⟩
